import Mathlib

/-!
# Verification of the powercache library

Shallow embedding of the two cache stores of the powercache Go library:
the TTL store (`ttl/cache.go`) and the recency (LRU-ordered) store
(package `lru`), together with proofs of the behavioural properties
stated in the specification.

Modelling conventions:
- `time.Time` and `time.Duration` are modelled as `Int` (nanoseconds);
  `time.Now()` is modelled by passing the current timestamp explicitly to
  every operation that reads the clock (`unsafeGet`, `unsafeSet`, and one
  timestamp per clock read inside `Do` and per pair inside `SetFromIter`).
- `t.After(u)` is `u < t`.
- The Go zero value of `V` is `(default : V)` via `Inhabited V`.
- Go's built-in `map` is modelled as an association list with unique keys;
  insertion replaces the binding in place.
- Locks are identities in this sequential model; `Get = unsafeGet` etc.
- A Go producer `fn func() (V, error)` is modelled as
  `fn : Unit → V × Option E`: it returns a value together with an optional
  error of an abstract error type `E`.
-/

namespace PowerCache

/-! ## Go `map` modelled as an association list -/

/-- Lookup in a Go map modelled as an association list: the first binding
whose key matches. -/
def mapLookup {K V : Type} [DecidableEq K] : List (K × V) → K → Option V
  | [], _ => none
  | (k', v) :: rest, k => if k' = k then some v else mapLookup rest k

/-- Insertion into a Go map modelled as an association list: replace the
existing binding in place, or append a fresh binding. -/
def mapInsert {K V : Type} [DecidableEq K] : List (K × V) → K → V → List (K × V)
  | [], k, v => [(k, v)]
  | (k', v') :: rest, k, v =>
    if k' = k then (k, v) :: rest else (k', v') :: mapInsert rest k v

/-- Go's `delete(m, k)`: remove the binding for `k` if present. -/
def mapErase {K V : Type} [DecidableEq K] : List (K × V) → K → List (K × V)
  | [], _ => []
  | (k', v') :: rest, k => if k' = k then rest else (k', v') :: mapErase rest k

/-! ## TTL store (`ttl/cache.go`) -/

/-- `ttl.cacheEntry[V]`: a value together with its absolute expiry time. -/
structure TTLEntry (V : Type) where
  value : V
  expireAt : Int
deriving DecidableEq, Repr

/-- `ttl.Cache[K, V]`: map from keys to entries plus the store-wide ttl.
The `sync.RWMutex` is not part of the sequential state. -/
structure TTLCache (K V : Type) where
  data : List (K × TTLEntry V)
  ttl : Int
deriving DecidableEq, Repr

namespace TTLCache

variable {K V E : Type} [DecidableEq K] [Inhabited V]

/-- `ttl.Cache.unsafeGet`: absent or expired (`now` strictly after
`expireAt`) reads return the zero value and `false`. -/
def unsafeGet (c : TTLCache K V) (key : K) (now : Int) : V × Bool :=
  match mapLookup c.data key with
  | none => (default, false)
  | some entry =>
    if entry.expireAt < now then (default, false) else (entry.value, true)

/-- `ttl.Cache.Get`: `RLock`; `unsafeGet`; `RUnlock`. -/
def Get (c : TTLCache K V) (key : K) (now : Int) : V × Bool :=
  c.unsafeGet key now

/-- `ttl.Cache.unsafeSet`: write `(value, now + ttl)` unconditionally. -/
def unsafeSet (c : TTLCache K V) (key : K) (value : V) (now : Int) : TTLCache K V :=
  ⟨mapInsert c.data key ⟨value, now + c.ttl⟩, c.ttl⟩

/-- `ttl.Cache.Set`: `Lock`; `unsafeSet`; `Unlock`. -/
def Set (c : TTLCache K V) (key : K) (value : V) (now : Int) : TTLCache K V :=
  c.unsafeSet key value now

/-- `ttl.Cache.Delete`: `delete(c.data, key)` under the lock. -/
def Delete (c : TTLCache K V) (key : K) : TTLCache K V :=
  ⟨mapErase c.data key, c.ttl⟩

/-- `ttl.Cache.Do`: fast-path `Get` at time `t1`, re-check with
`unsafeGet` at time `t2` under the write lock, then invoke `fn`; on error
return `fn`'s value and error unchanged, on success `unsafeSet` at time
`t3` and return the value with a nil error. -/
def Do (c : TTLCache K V) (key : K) (fn : Unit → V × Option E)
    (t1 t2 t3 : Int) : TTLCache K V × V × Option E :=
  let g1 := c.Get key t1
  if g1.2 then (c, g1.1, none)
  else
    let g2 := c.unsafeGet key t2
    if g2.2 then (c, g2.1, none)
    else
      let r := fn ()
      match r.2 with
      | some err => (c, r.1, some err)
      | none => (c.unsafeSet key r.1 t3, r.1, none)

/-- `ttl.Cache.SetFromIter`: one `unsafeSet` per yielded pair under a
single lock acquisition; each `unsafeSet` reads the clock, so every pair
carries its own timestamp. -/
def SetFromIter (c : TTLCache K V) (data : List ((K × V) × Int)) : TTLCache K V :=
  data.foldl (fun acc p => acc.unsafeSet p.1.1 p.1.2 p.2) c

/-- `ttl.Cache.SetFromMap`: `SetFromIter(maps.All(data))`; Go map
iteration order is unspecified, so the model receives the iteration order
explicitly as a list of pairs. -/
def SetFromMap (c : TTLCache K V) (order : List ((K × V) × Int)) : TTLCache K V :=
  c.SetFromIter order

/-- `ttl.New`: empty map, the given ttl. -/
def New (K V : Type) [DecidableEq K] (ttl : Int) : TTLCache K V :=
  ⟨[], ttl⟩

end TTLCache

/-! ## Recency store (package `lru`)

The store holds a doubly linked list of `cacheEntry{key, value}`.
The list container itself (`internal/container/list`) is not part of the
sources; its operations are modelled from the spec below.  The list is
modelled front-to-back as a Lean `List (K × V)`; a node handle is
identified with the first entry carrying its key (the one `findEntry`
returns). -/

/-- Modelled from the spec: `list.Remove(node)` of the internal doubly
linked list container — O(1) removal of the node found by `findEntry`,
i.e. the first entry with the given key. -/
def removeFirstKey {K V : Type} [DecidableEq K] : List (K × V) → K → List (K × V)
  | [], _ => []
  | e :: rest, k => if e.1 = k then rest else e :: removeFirstKey rest k

/-- `lru.Cache[K, V]`: the linked list of entries, front first.
The `sync.RWMutex` is not part of the sequential state. -/
structure LRUCache (K V : Type) where
  entries : List (K × V)
deriving DecidableEq, Repr

namespace LRUCache

variable {K V E : Type} [DecidableEq K] [Inhabited V]

/-- The scan loop of `lru.Cache.findEntry`:
`for cur := root; cur != nil; cur = cur.Next()`, first key match wins. -/
def scanFront : List (K × V) → K → Option (K × V)
  | [], _ => none
  | e :: rest, k => if e.1 = k then some e else scanFront rest k

/-- `lru.Cache.findEntry`: linear scan from the front, returning the
first entry whose key matches, or nothing. -/
def findEntry (c : LRUCache K V) (key : K) : Option (K × V) :=
  scanFront c.entries key

/-- Modelled from the spec: `list.MoveToFront(node)` — O(1) move-to-front
of the node found by `findEntry`. -/
def moveToFront (c : LRUCache K V) (e : K × V) : LRUCache K V :=
  ⟨e :: removeFirstKey c.entries e.1⟩

/-- `lru.Cache.unsafeGet`: scan; on a hit move the node to the front and
return its value, on a miss return the zero value.  The returned cache is
the (possibly reordered) state. -/
def unsafeGet (c : LRUCache K V) (key : K) : LRUCache K V × V × Bool :=
  match c.findEntry key with
  | none => (c, default, false)
  | some e => (c.moveToFront e, e.2, true)

/-- `lru.Cache.Get`: `RLock`; `unsafeGet`; `RUnlock` (the reorder happens
under the shared lock in the source; sequentially it is just applied). -/
def Get (c : LRUCache K V) (key : K) : LRUCache K V × V × Bool :=
  c.unsafeGet key

/-- `lru.Cache.unsafeSet`: on a hit overwrite the node's value and move
it to the front; on a miss `InsertBefore(entry, Front())`, i.e. insert at
the front (modelled from the spec: O(1) front-insertion). -/
def unsafeSet (c : LRUCache K V) (key : K) (value : V) : LRUCache K V :=
  match c.findEntry key with
  | some _ => ⟨(key, value) :: removeFirstKey c.entries key⟩
  | none => ⟨(key, value) :: c.entries⟩

/-- `lru.Cache.Set`: `Lock`; `unsafeSet`; `Unlock`. -/
def Set (c : LRUCache K V) (key : K) (value : V) : LRUCache K V :=
  c.unsafeSet key value

/-- `lru.Cache.Delete`: on a hit remove the node, on a miss do nothing. -/
def Delete (c : LRUCache K V) (key : K) : LRUCache K V :=
  match c.findEntry key with
  | some _ => ⟨removeFirstKey c.entries key⟩
  | none => c

/-- `lru.Cache.Do`: fast-path `Get`, re-check with `unsafeGet` under the
write lock, then invoke `fn`; on error return `fn`'s value and error
unchanged, on success `unsafeSet` and return the value with a nil
error. -/
def Do (c : LRUCache K V) (key : K) (fn : Unit → V × Option E) :
    LRUCache K V × V × Option E :=
  let g1 := c.Get key
  if g1.2.2 then (g1.1, g1.2.1, none)
  else
    let g2 := g1.1.unsafeGet key
    if g2.2.2 then (g2.1, g2.2.1, none)
    else
      let r := fn ()
      match r.2 with
      | some err => (g2.1, r.1, some err)
      | none => (g2.1.unsafeSet key r.1, r.1, none)

/-- `lru.Cache.SetFromIter`: one `unsafeSet` per yielded pair under a
single lock acquisition. -/
def SetFromIter (c : LRUCache K V) (data : List (K × V)) : LRUCache K V :=
  data.foldl (fun acc p => acc.unsafeSet p.1 p.2) c

/-- `lru.Cache.SetFromMap`: `SetFromIter(maps.All(data))`; Go map
iteration order is unspecified, so the model receives the iteration order
explicitly. -/
def SetFromMap (c : LRUCache K V) (order : List (K × V)) : LRUCache K V :=
  c.SetFromIter order

/-- `lru.New`: empty list.  The source's `New` takes a `ttl time.Duration`
parameter that it never uses; the model keeps it. -/
def New (K V : Type) (ttl : Int) : LRUCache K V :=
  ⟨[]⟩

end LRUCache

/-! ## Lemmas about the map model -/

section MapLemmas

variable {K V : Type} [DecidableEq K]

@[simp]
theorem mapLookup_nil (k : K) : mapLookup ([] : List (K × V)) k = none := rfl

theorem mapLookup_mapInsert_self (l : List (K × V)) (k : K) (v : V) :
    mapLookup (mapInsert l k v) k = some v := by
  induction l with
  | nil => simp [mapInsert, mapLookup]
  | cons p rest ih =>
    obtain ⟨k', v'⟩ := p
    by_cases h : k' = k
    · simp [mapInsert, mapLookup, h]
    · simp [mapInsert, mapLookup, h, ih]

theorem mapLookup_mapInsert_ne (l : List (K × V)) {k k' : K} (v : V) (h : k' ≠ k) :
    mapLookup (mapInsert l k v) k' = mapLookup l k' := by
  have hk : ¬(k = k') := Ne.symm h
  induction l with
  | nil => simp [mapInsert, mapLookup, hk]
  | cons p rest ih =>
    obtain ⟨a, b⟩ := p
    by_cases ha : a = k
    · subst ha
      simp [mapInsert, mapLookup, hk]
    · simp only [mapInsert, if_neg ha, mapLookup]
      by_cases ha' : a = k'
      · simp [ha']
      · simp [ha', ih]

end MapLemmas

/-! ## Key uniqueness ("at most one entry per key") -/

/-- At most one entry per key: all entry keys are pairwise distinct. -/
def keysUnique {K V : Type} (l : List (K × V)) : Prop :=
  l.Pairwise (fun a b => a.1 ≠ b.1)

instance {K V : Type} [DecidableEq K] (l : List (K × V)) :
    Decidable (keysUnique l) :=
  inferInstanceAs (Decidable (l.Pairwise _))

section MapKeyLemmas

variable {K V : Type} [DecidableEq K]

theorem mem_mapInsert {l : List (K × V)} {k : K} {v : V} {e : K × V}
    (h : e ∈ mapInsert l k v) : e = (k, v) ∨ e ∈ l := by
  induction l with
  | nil =>
    simp only [mapInsert, List.mem_cons, List.not_mem_nil, or_false] at h
    exact Or.inl h
  | cons p rest ih =>
    obtain ⟨a, b⟩ := p
    by_cases hp : a = k
    · simp only [mapInsert, if_pos hp, List.mem_cons] at h
      rcases h with h' | h'
      · exact Or.inl h'
      · exact Or.inr (List.mem_cons.2 (Or.inr h'))
    · simp only [mapInsert, if_neg hp, List.mem_cons] at h
      rcases h with h' | h'
      · exact Or.inr (List.mem_cons.2 (Or.inl h'))
      · rcases ih h' with h'' | h''
        · exact Or.inl h''
        · exact Or.inr (List.mem_cons.2 (Or.inr h''))

theorem keysUnique_mapInsert {l : List (K × V)} {k : K} {v : V}
    (h : keysUnique l) : keysUnique (mapInsert l k v) := by
  induction l with
  | nil => simp [mapInsert, keysUnique]
  | cons p rest ih =>
    obtain ⟨a, b⟩ := p
    simp only [keysUnique, List.pairwise_cons] at h
    by_cases hp : a = k
    · simp only [mapInsert, if_pos hp, keysUnique, List.pairwise_cons]
      exact ⟨fun e he => hp ▸ h.1 e he, h.2⟩
    · simp only [mapInsert, if_neg hp, keysUnique, List.pairwise_cons]
      refine ⟨fun e he => ?_, ih h.2⟩
      rcases mem_mapInsert he with h' | h'
      · rw [h']
        exact hp
      · exact h.1 e h'

end MapKeyLemmas

/-! ## Lemmas about the recency store's scan and list operations -/

namespace LRUCache

variable {K V : Type} [DecidableEq K]

theorem scanFront_eq_none_iff {l : List (K × V)} {k : K} :
    scanFront l k = none ↔ ∀ e ∈ l, e.1 ≠ k := by
  induction l with
  | nil => simp [scanFront]
  | cons p rest ih =>
    by_cases h : p.1 = k
    · simp [scanFront, h]
    · simp [scanFront, h, ih]

theorem scanFront_key {l : List (K × V)} {k : K} {e : K × V}
    (h : scanFront l k = some e) : e.1 = k := by
  induction l with
  | nil => simp [scanFront] at h
  | cons p rest ih =>
    by_cases hp : p.1 = k
    · rw [scanFront, if_pos hp] at h
      cases h
      exact hp
    · rw [scanFront, if_neg hp] at h
      exact ih h

theorem scanFront_mem {l : List (K × V)} {k : K} {e : K × V}
    (h : scanFront l k = some e) : e ∈ l := by
  induction l with
  | nil => simp [scanFront] at h
  | cons p rest ih =>
    by_cases hp : p.1 = k
    · rw [scanFront, if_pos hp] at h
      cases h
      exact List.mem_cons_self _ _
    · rw [scanFront, if_neg hp] at h
      exact List.mem_cons_of_mem _ (ih h)

theorem scanFront_removeFirstKey_ne {l : List (K × V)} {k k' : K} (h : k' ≠ k) :
    scanFront (removeFirstKey l k) k' = scanFront l k' := by
  induction l with
  | nil => simp [removeFirstKey]
  | cons p rest ih =>
    by_cases hp : p.1 = k
    · rw [removeFirstKey, if_pos hp, scanFront, if_neg (by rw [hp]; exact fun e => h e.symm)]
    · rw [removeFirstKey, if_neg hp, scanFront, scanFront]
      by_cases hp' : p.1 = k'
      · simp [hp']
      · simp [hp', ih]

theorem perm_cons_removeFirstKey {l : List (K × V)} {k : K} {e : K × V}
    (h : scanFront l k = some e) : l.Perm (e :: removeFirstKey l k) := by
  induction l with
  | nil => simp [scanFront] at h
  | cons p rest ih =>
    by_cases hp : p.1 = k
    · rw [scanFront, if_pos hp] at h
      cases h
      rw [removeFirstKey, if_pos hp]
    · rw [scanFront, if_neg hp] at h
      rw [removeFirstKey, if_neg hp]
      exact ((ih h).cons p).trans (List.Perm.swap e p _)

theorem mem_removeFirstKey {l : List (K × V)} {k : K} {e : K × V}
    (h : e ∈ removeFirstKey l k) : e ∈ l := by
  induction l with
  | nil => simp [removeFirstKey] at h
  | cons p rest ih =>
    by_cases hp : p.1 = k
    · rw [removeFirstKey, if_pos hp] at h
      exact List.mem_cons_of_mem _ h
    · rw [removeFirstKey, if_neg hp] at h
      rcases List.mem_cons.1 h with h' | h'
      · exact h' ▸ List.mem_cons_self _ _
      · exact List.mem_cons_of_mem _ (ih h')

theorem key_not_mem_removeFirstKey {l : List (K × V)} {k : K}
    (hu : keysUnique l) : ∀ e ∈ removeFirstKey l k, k ≠ e.1 := by
  induction l with
  | nil => simp [removeFirstKey]
  | cons p rest ih =>
    simp only [keysUnique, List.pairwise_cons] at hu
    by_cases hp : p.1 = k
    · rw [removeFirstKey, if_pos hp]
      exact fun e he => hp ▸ hu.1 e he
    · rw [removeFirstKey, if_neg hp]
      intro e he
      rcases List.mem_cons.1 he with h' | h'
      · rw [h']
        exact fun hx => hp hx.symm
      · exact ih hu.2 e h'

theorem keysUnique_removeFirstKey {l : List (K × V)} {k : K}
    (hu : keysUnique l) : keysUnique (removeFirstKey l k) := by
  induction l with
  | nil => simpa [removeFirstKey] using hu
  | cons p rest ih =>
    simp only [keysUnique, List.pairwise_cons] at hu
    by_cases hp : p.1 = k
    · rw [removeFirstKey, if_pos hp]
      exact hu.2
    · rw [removeFirstKey, if_neg hp]
      simp only [keysUnique, List.pairwise_cons]
      exact ⟨fun e he => hu.1 e (mem_removeFirstKey he), ih hu.2⟩

theorem mem_removeFirstKey_of_ne {l : List (K × V)} {k : K} {e : K × V}
    (he : e ∈ l) (hne : e.1 ≠ k) : e ∈ removeFirstKey l k := by
  induction l with
  | nil => simp at he
  | cons p rest ih =>
    by_cases hp : p.1 = k
    · rw [removeFirstKey, if_pos hp]
      rcases List.mem_cons.1 he with h' | h'
      · exact absurd (h' ▸ hp) hne
      · exact h'
    · rw [removeFirstKey, if_neg hp]
      rcases List.mem_cons.1 he with h' | h'
      · exact h' ▸ List.mem_cons_self _ _
      · exact List.mem_cons_of_mem _ (ih h')

/-! Behaviour of `unsafeSet`, `unsafeGet` on lookups and the key set -/

variable [Inhabited V]

theorem findEntry_unsafeSet_self (c : LRUCache K V) (k : K) (v : V) :
    (c.unsafeSet k v).findEntry k = some (k, v) := by
  rw [unsafeSet]
  cases c.findEntry k <;> simp [findEntry, scanFront]

theorem findEntry_unsafeSet_ne (c : LRUCache K V) {k k' : K} (v : V) (h : k' ≠ k) :
    (c.unsafeSet k v).findEntry k' = c.findEntry k' := by
  rw [unsafeSet]
  cases hf : c.findEntry k with
  | none => simp [findEntry, scanFront, Ne.symm h]
  | some e =>
    show scanFront ((k, v) :: removeFirstKey c.entries k) k' = scanFront c.entries k'
    rw [scanFront, if_neg (Ne.symm h)]
    exact scanFront_removeFirstKey_ne h

theorem keysUnique_unsafeSet (c : LRUCache K V) (k : K) (v : V)
    (hu : keysUnique c.entries) : keysUnique ((c.unsafeSet k v).entries) := by
  rw [unsafeSet]
  cases hf : c.findEntry k with
  | none =>
    simp only [keysUnique, List.pairwise_cons]
    have habs := scanFront_eq_none_iff.1 hf
    exact ⟨fun e he hx => (habs e he) hx.symm, hu⟩
  | some e =>
    simp only [keysUnique, List.pairwise_cons]
    exact ⟨fun e' he' => key_not_mem_removeFirstKey hu e' he', keysUnique_removeFirstKey hu⟩

theorem unsafeGet_state_of_none (c : LRUCache K V) {k : K}
    (h : c.findEntry k = none) : (c.unsafeGet k).1 = c := by
  rw [unsafeGet, h]

theorem unsafeGet_perm (c : LRUCache K V) (k : K) :
    ((c.unsafeGet k).1).entries.Perm c.entries := by
  rw [unsafeGet]
  cases hf : c.findEntry k with
  | none => exact List.Perm.refl _
  | some e =>
    have hk : e.1 = k := scanFront_key hf
    show (e :: removeFirstKey c.entries e.1).Perm c.entries
    rw [hk]
    exact (perm_cons_removeFirstKey hf).symm

theorem keysUnique_unsafeGet (c : LRUCache K V) (k : K)
    (hu : keysUnique c.entries) : keysUnique (((c.unsafeGet k).1).entries) := by
  rw [unsafeGet]
  cases hf : c.findEntry k with
  | none => exact hu
  | some e =>
    simp only [moveToFront, keysUnique, List.pairwise_cons]
    exact ⟨fun e' he' => key_not_mem_removeFirstKey hu e' he', keysUnique_removeFirstKey hu⟩

theorem mem_unsafeSet_of_ne (c : LRUCache K V) (k : K) (v : V) {e : K × V}
    (he : e ∈ c.entries) (hne : e.1 ≠ k) : e ∈ (c.unsafeSet k v).entries := by
  rw [unsafeSet]
  cases hf : c.findEntry k with
  | none => exact List.mem_cons_of_mem _ he
  | some e' => exact List.mem_cons_of_mem _ (mem_removeFirstKey_of_ne he hne)

/-! The fold of `unsafeSet` over a sequence of pairs -/

end LRUCache

/-- The value of the last (most recent, i.e. latest in the list) `Set` for
a given key in a sequence of key/value pairs. -/
def lastValue {K V : Type} [DecidableEq K] : List (K × V) → K → Option V
  | [], _ => none
  | p :: rest, k =>
    match lastValue rest k with
    | some v => some v
    | none => if p.1 = k then some p.2 else none

theorem lastValue_eq_none_of_forall {K V : Type} [DecidableEq K]
    {ops : List (K × V)} {k : K} (h : ∀ p ∈ ops, p.1 ≠ k) :
    lastValue ops k = none := by
  induction ops with
  | nil => rfl
  | cons p rest ih =>
    rw [lastValue, ih (fun q hq => h q (List.mem_cons_of_mem _ hq))]
    simp [h p (List.mem_cons_self _ _)]

theorem lastValue_of_mem_unique {K V : Type} [DecidableEq K]
    {ops : List (K × V)} {k : K} {v : V}
    (hu : keysUnique ops) (hm : (k, v) ∈ ops) :
    lastValue ops k = some v := by
  induction ops with
  | nil => simp at hm
  | cons p rest ih =>
    simp only [keysUnique, List.pairwise_cons] at hu
    rcases List.mem_cons.1 hm with h' | h'
    · have hpk : p.1 = k := by rw [← h']
      have hpv : p.2 = v := by rw [← h']
      have hrest : lastValue rest k = none :=
        lastValue_eq_none_of_forall (fun q hq hx => hu.1 q hq (hpk.trans hx.symm))
      rw [lastValue, hrest]
      simp [hpk, hpv]
    · rw [lastValue, ih hu.2 h']

namespace LRUCache

variable {K V : Type} [DecidableEq K] [Inhabited V]

theorem findEntry_setFold (ops : List (K × V)) (c : LRUCache K V) (k : K) :
    (c.SetFromIter ops).findEntry k =
      match lastValue ops k with
      | some v => some (k, v)
      | none => c.findEntry k := by
  induction ops generalizing c with
  | nil => simp [SetFromIter, lastValue]
  | cons p rest ih =>
    have hstep : c.SetFromIter (p :: rest) = (c.unsafeSet p.1 p.2).SetFromIter rest := rfl
    rw [hstep, ih]
    cases hl : lastValue rest k with
    | some v => simp [lastValue, hl]
    | none =>
      by_cases hp : p.1 = k
      · subst hp
        rw [lastValue, hl]
        simp [findEntry_unsafeSet_self]
      · rw [lastValue, hl]
        simp only [hp, if_neg hp]
        exact findEntry_unsafeSet_ne c p.2 (fun e => hp e.symm)

theorem lru_keysUnique_setFold (ops : List (K × V)) (c : LRUCache K V)
    (hu : keysUnique c.entries) : keysUnique ((c.SetFromIter ops).entries) := by
  induction ops generalizing c with
  | nil => exact hu
  | cons p rest ih =>
    exact ih (c.unsafeSet p.1 p.2) (keysUnique_unsafeSet c p.1 p.2 hu)

/-! Reductions of `lru.Cache.Do` in the sequential model -/

theorem lruDo_of_hit {c : LRUCache K V} {key : K} {e : K × V} {E : Type}
    (h : c.findEntry key = some e) (fn : Unit → V × Option E) :
    c.Do key fn = (c.moveToFront e, e.2, none) := by
  simp [Do, Get, unsafeGet, h]

theorem lruDo_of_miss_err {c : LRUCache K V} {key : K} {E : Type}
    (h : c.findEntry key = none) {fn : Unit → V × Option E} {v : V} {er : E}
    (hfn : fn () = (v, some er)) :
    c.Do key fn = (c, v, some er) := by
  simp [Do, Get, unsafeGet, h, hfn]

theorem lruDo_of_miss_ok {c : LRUCache K V} {key : K} {E : Type}
    (h : c.findEntry key = none) {fn : Unit → V × Option E} {v : V}
    (hfn : fn () = (v, none)) :
    c.Do key fn = (c.unsafeSet key v, v, none) := by
  simp [Do, Get, unsafeGet, h, hfn]

end LRUCache

/-! ## The most recent timestamped `Set` for a key -/

/-- The value and write time of the most recent (latest in the list)
`Set` for a given key in a sequence of timestamped key/value pairs. -/
def lastStamped {K V : Type} [DecidableEq K] :
    List ((K × V) × Int) → K → Option (V × Int)
  | [], _ => none
  | p :: rest, k =>
    match lastStamped rest k with
    | some r => some r
    | none => if p.1.1 = k then some (p.1.2, p.2) else none

theorem lastStamped_eq_none_of_forall {K V : Type} [DecidableEq K]
    {ops : List ((K × V) × Int)} {k : K} (h : ∀ p ∈ ops, p.1.1 ≠ k) :
    lastStamped ops k = none := by
  induction ops with
  | nil => rfl
  | cons p rest ih =>
    rw [lastStamped, ih (fun q hq => h q (List.mem_cons_of_mem _ hq))]
    simp [h p (List.mem_cons_self _ _)]

theorem lastStamped_of_mem_unique {K V : Type} [DecidableEq K]
    {ops : List ((K × V) × Int)} {k : K} {v : V} {t : Int}
    (hu : ops.Pairwise (fun a b => a.1.1 ≠ b.1.1)) (hm : ((k, v), t) ∈ ops) :
    lastStamped ops k = some (v, t) := by
  induction ops with
  | nil => simp at hm
  | cons p rest ih =>
    rw [List.pairwise_cons] at hu
    rcases List.mem_cons.1 hm with h' | h'
    · have hpk : p.1.1 = k := by rw [← h']
      have hpv : p.1.2 = v := by rw [← h']
      have hpt : p.2 = t := by rw [← h']
      have hrest : lastStamped rest k = none :=
        lastStamped_eq_none_of_forall (fun q hq hx => hu.1 q hq (hpk.trans hx.symm))
      rw [lastStamped, hrest]
      simp [hpk, hpv, hpt]
    · rw [lastStamped, ih hu.2 h']

namespace TTLCache

variable {K V : Type} [DecidableEq K] [Inhabited V]

theorem setFold_ttl (ops : List ((K × V) × Int)) (c : TTLCache K V) :
    (c.SetFromIter ops).ttl = c.ttl := by
  induction ops generalizing c with
  | nil => rfl
  | cons p rest ih => exact ih (c.unsafeSet p.1.1 p.1.2 p.2)

theorem mapLookup_setFold (ops : List ((K × V) × Int)) (c : TTLCache K V) (k : K) :
    mapLookup ((c.SetFromIter ops).data) k =
      match lastStamped ops k with
      | some r => some ⟨r.1, r.2 + c.ttl⟩
      | none => mapLookup c.data k := by
  induction ops generalizing c with
  | nil => simp [SetFromIter, lastStamped]
  | cons p rest ih =>
    have hstep : c.SetFromIter (p :: rest) =
        (c.unsafeSet p.1.1 p.1.2 p.2).SetFromIter rest := rfl
    rw [hstep, ih]
    cases hl : lastStamped rest k with
    | some r => simp [lastStamped, hl, unsafeSet]
    | none =>
      by_cases hp : p.1.1 = k
      · subst hp
        rw [lastStamped, hl]
        simp [unsafeSet, mapLookup_mapInsert_self]
      · rw [lastStamped, hl]
        simp only [hp, if_neg hp]
        exact mapLookup_mapInsert_ne c.data _ (fun e => hp e.symm)

theorem keysUnique_setFold (ops : List ((K × V) × Int)) (c : TTLCache K V)
    (hu : keysUnique c.data) : keysUnique ((c.SetFromIter ops).data) := by
  induction ops generalizing c with
  | nil => exact hu
  | cons p rest ih =>
    exact ih (c.unsafeSet p.1.1 p.1.2 p.2) (keysUnique_mapInsert hu)

/-! Behaviour of `ttl.Cache.unsafeGet` -/

theorem unsafeGet_of_lookup_none {c : TTLCache K V} {k : K}
    (h : mapLookup c.data k = none) (t : Int) :
    c.unsafeGet k t = (default, false) := by
  simp [unsafeGet, h]

theorem unsafeGet_of_lookup_fresh {c : TTLCache K V} {k : K} {e : TTLEntry V}
    (h : mapLookup c.data k = some e) {t : Int} (ht : ¬e.expireAt < t) :
    c.unsafeGet k t = (e.value, true) := by
  simp [unsafeGet, h, ht]

theorem unsafeGet_of_lookup_expired {c : TTLCache K V} {k : K} {e : TTLEntry V}
    (h : mapLookup c.data k = some e) {t : Int} (ht : e.expireAt < t) :
    c.unsafeGet k t = (default, false) := by
  simp [unsafeGet, h, ht]

/-- A read that missed stays a miss at any later timestamp: an absent key
stays absent, and an expired entry stays expired. -/
theorem unsafeGet_false_mono {c : TTLCache K V} {k : K} {t1 t2 : Int}
    (h : (c.unsafeGet k t1).2 = false) (ht : t1 ≤ t2) :
    (c.unsafeGet k t2).2 = false := by
  cases hl : mapLookup c.data k with
  | none => rw [unsafeGet_of_lookup_none hl]
  | some e =>
    by_cases he : e.expireAt < t1
    · rw [unsafeGet_of_lookup_expired hl (lt_of_lt_of_le he ht)]
    · rw [unsafeGet_of_lookup_fresh hl he] at h
      simp at h

/-! Reductions of `ttl.Cache.Do` in the sequential model -/

theorem Do_of_hit {c : TTLCache K V} {key : K} {t1 : Int} {E : Type}
    (h : (c.unsafeGet key t1).2 = true) (fn : Unit → V × Option E) (t2 t3 : Int) :
    c.Do key fn t1 t2 t3 = (c, (c.unsafeGet key t1).1, none) := by
  simp only [Do, Get, h, if_true]

theorem Do_of_miss_err {c : TTLCache K V} {key : K} {t1 t2 : Int} {E : Type}
    (h1 : (c.unsafeGet key t1).2 = false) (h2 : (c.unsafeGet key t2).2 = false)
    {fn : Unit → V × Option E} {v : V} {er : E}
    (hfn : fn () = (v, some er)) (t3 : Int) :
    c.Do key fn t1 t2 t3 = (c, v, some er) := by
  simp only [Do, Get, h1, h2, hfn, Bool.false_eq_true, if_false]

theorem Do_of_miss_ok {c : TTLCache K V} {key : K} {t1 t2 : Int} {E : Type}
    (h1 : (c.unsafeGet key t1).2 = false) (h2 : (c.unsafeGet key t2).2 = false)
    {fn : Unit → V × Option E} {v : V}
    (hfn : fn () = (v, none)) (t3 : Int) :
    c.Do key fn t1 t2 t3 = (c.unsafeSet key v t3, v, none) := by
  simp only [Do, Get, h1, h2, hfn, Bool.false_eq_true, if_false]

/-- A read that reports a miss returns the zero value. -/
theorem unsafeGet_eq_of_false {c : TTLCache K V} {k : K} {t : Int}
    (h : (c.unsafeGet k t).2 = false) : c.unsafeGet k t = (default, false) := by
  cases hl : mapLookup c.data k with
  | none => exact unsafeGet_of_lookup_none hl t
  | some e =>
    by_cases he : e.expireAt < t
    · exact unsafeGet_of_lookup_expired hl he
    · rw [unsafeGet_of_lookup_fresh hl he] at h
      simp at h

end TTLCache

namespace LRUCache

variable {K V : Type} [DecidableEq K] [Inhabited V]

theorem unsafeSet_of_none {c : LRUCache K V} {k : K} (v : V)
    (h : c.findEntry k = none) : (c.unsafeSet k v).entries = (k, v) :: c.entries := by
  rw [unsafeSet, h]

theorem snd_unsafeGet_of_findEntry {c : LRUCache K V} {k : K} {e : K × V}
    (h : c.findEntry k = some e) : (c.unsafeGet k).2 = (e.2, true) := by
  rw [unsafeGet, h]

theorem unsafeGet_of_none {c : LRUCache K V} {k : K}
    (h : c.findEntry k = none) : c.unsafeGet k = (c, default, false) := by
  rw [unsafeGet, h]

end LRUCache

/-! ## The claims -/

/-- Claim C2: for a TTL store with `ttl = T`, after `Set(k, v)` at time
`t0`: a `Get(k)` strictly before `t0 + T` returns `(v, true)`; a `Get(k)`
strictly after `t0 + T` returns `(zero, false)`; the entry stays
physically present in the map (reads never remove it); and a later
`Set(k, v2)` overwrites it and resets the expiry window to its own write
time plus `T`. -/
theorem claim_C2_ttl_lazy_expiry {K V : Type} [DecidableEq K] [Inhabited V] :
    ∀ (c : TTLCache K V) (k : K) (v : V) (t0 : Int),
      (∀ t, t < t0 + c.ttl → (c.Set k v t0).Get k t = (v, true)) ∧
      (∀ t, t0 + c.ttl < t → (c.Set k v t0).Get k t = (default, false)) ∧
      mapLookup ((c.Set k v t0).data) k = some ⟨v, t0 + c.ttl⟩ ∧
      (∀ (v2 : V) (t1 : Int),
        mapLookup (((c.Set k v t0).Set k v2 t1).data) k = some ⟨v2, t1 + c.ttl⟩ ∧
        (∀ t, t ≤ t1 + c.ttl → ((c.Set k v t0).Set k v2 t1).Get k t = (v2, true))) := by
  intro c k v t0
  have hlook : mapLookup ((c.Set k v t0).data) k = some ⟨v, t0 + c.ttl⟩ :=
    mapLookup_mapInsert_self c.data k _
  refine ⟨fun t ht => ?_, fun t ht => ?_, hlook, fun v2 t1 => ?_⟩
  · exact TTLCache.unsafeGet_of_lookup_fresh hlook (by simpa using not_lt.2 (le_of_lt ht))
  · exact TTLCache.unsafeGet_of_lookup_expired hlook (by simpa using ht)
  · have hlook2 : mapLookup (((c.Set k v t0).Set k v2 t1).data) k =
        some ⟨v2, t1 + c.ttl⟩ := mapLookup_mapInsert_self _ k _
    refine ⟨hlook2, fun t ht => ?_⟩
    exact TTLCache.unsafeGet_of_lookup_fresh hlook2 (by simpa using not_lt.2 ht)

/-- Claim C2 witness: a concrete instantiation with `ttl = 10`,
`Set 1 5` at time `100`. -/
theorem claim_C2_witness :
    ((TTLCache.New Nat Nat 10).Set 1 5 100).Get 1 109 = (5, true) ∧
    ((TTLCache.New Nat Nat 10).Set 1 5 100).Get 1 111 = (0, false) ∧
    mapLookup (((TTLCache.New Nat Nat 10).Set 1 5 100).data) 1 = some ⟨5, 110⟩ ∧
    ((((TTLCache.New Nat Nat 10).Set 1 5 100).Set 1 7 200).Get 1 210 = (7, true)) := by
  have h := claim_C2_ttl_lazy_expiry (TTLCache.New Nat Nat 10) 1 5 100
  exact ⟨h.1 109 (by decide), h.2.1 111 (by decide), h.2.2.1,
    (h.2.2.2 7 200).2 210 (by decide)⟩

/-- Claim C4 counterexample: after `Set("a",1)`, `Set("b",2)`,
`Get("a")`, `Set("c",3)` on a fresh recency store, the front-to-back
order of the list is NOT `a, c, b` as the claim states. -/
theorem claim_C4_counterexample :
    ((((((LRUCache.New String Nat 0).Set "a" 1).Set "b" 2).Get "a").1).Set "c" 3).entries ≠
      [("a", 1), ("c", 3), ("b", 2)] := by
  decide

/-- Claim C4 (amended): after `Set("a",1)`, `Set("b",2)`, `Get("a")`
(which returns `(1, true)`), `Set("c",3)`, the front-to-back order of the
internal list is `c, a, b` (a moved to front on Get, then c inserted at
the front, in front of a). -/
theorem claim_C4_amended_order :
    (((((LRUCache.New String Nat 0).Set "a" 1).Set "b" 2).Get "a").2 = (1, true)) ∧
    ((((((LRUCache.New String Nat 0).Set "a" 1).Set "b" 2).Get "a").1).Set "c" 3).entries =
      [("c", 3), ("a", 1), ("b", 2)] := by
  decide

/-- Claim C6: for a TTL store with `ttl ≤ 0`, every entry is immediately
expired after being set: `Set(k, v)` at `t0` followed by `Get(k)` at any
strictly later timestamp returns `(zero, false)`. -/
theorem claim_C6_nonpositive_ttl_write_only {K V : Type} [DecidableEq K] [Inhabited V] :
    ∀ (c : TTLCache K V) (k : K) (v : V) (t0 t1 : Int),
      c.ttl ≤ 0 → t0 < t1 → (c.Set k v t0).Get k t1 = (default, false) := by
  intro c k v t0 t1 httl ht
  have hlook : mapLookup ((c.Set k v t0).data) k = some ⟨v, t0 + c.ttl⟩ :=
    mapLookup_mapInsert_self c.data k _
  exact TTLCache.unsafeGet_of_lookup_expired hlook
    (by simpa using lt_of_le_of_lt (by omega : t0 + c.ttl ≤ t0) ht)

/-- Claim C6 witness: `ttl = 0`, `Set("x", 10)` at time `5`, `Get("x")`
at time `6` returns `(0, false)`. -/
theorem claim_C6_witness :
    ((TTLCache.New String Int 0).Set "x" 10 5).Get "x" 6 = (0, false) := by
  exact claim_C6_nonpositive_ttl_write_only
    (TTLCache.New String Int 0) "x" 10 5 6 (by decide) (by decide)

/-- Claim C9 (code behaviour at the spec divergence): the recency store's
`New` takes a `ttl` parameter in the source — contrary to the spec, which
says it takes none — but ignores it entirely (`New t1 = New t2`), and the
store it returns is empty: `Get(k)` misses for every key. -/
theorem claim_C9_new_ignores_ttl_and_is_empty {K V : Type} [DecidableEq K] [Inhabited V] :
    ∀ (ttl1 ttl2 : Int) (k : K),
      LRUCache.New K V ttl1 = LRUCache.New K V ttl2 ∧
      (LRUCache.New K V ttl1).Get k = (LRUCache.New K V ttl1, default, false) := by
  intro ttl1 ttl2 k
  exact ⟨rfl, LRUCache.unsafeGet_of_none rfl⟩

/-- Claim C1: for both stores, if the producer handed to `Do` returns an
error then `Do` propagates that error verbatim, the store state is
unchanged, a subsequent `Get(k)` (at any not-earlier time, for the TTL
store) misses, and a subsequent `Do(k, producer2)` invokes `producer2`
(shown on a succeeding `producer2`, whose result is stored and
returned). -/
theorem claim_C1_do_error_leaves_no_trace {K V E : Type} [DecidableEq K] [Inhabited V] :
    (∀ (c : TTLCache K V) (key : K) (fn : Unit → V × Option E) (v : V) (er : E)
        (t1 t2 t3 : Int),
      fn () = (v, some er) →
      (c.unsafeGet key t1).2 = false →
      (c.unsafeGet key t2).2 = false →
      c.Do key fn t1 t2 t3 = (c, v, some er) ∧
      (∀ t4, t1 ≤ t4 → c.Get key t4 = (default, false)) ∧
      (∀ (fn2 : Unit → V × Option E) (v2 : V) (u1 u2 u3 : Int),
        fn2 () = (v2, none) → t1 ≤ u1 → t1 ≤ u2 →
        c.Do key fn2 u1 u2 u3 = (c.unsafeSet key v2 u3, v2, none))) ∧
    (∀ (c : LRUCache K V) (key : K) (fn : Unit → V × Option E) (v : V) (er : E),
      fn () = (v, some er) →
      c.findEntry key = none →
      c.Do key fn = (c, v, some er) ∧
      c.Get key = (c, default, false) ∧
      (∀ (fn2 : Unit → V × Option E) (v2 : V),
        fn2 () = (v2, none) →
        c.Do key fn2 = (c.unsafeSet key v2, v2, none))) := by
  constructor
  · intro c key fn v er t1 t2 t3 hfn h1 h2
    refine ⟨TTLCache.Do_of_miss_err h1 h2 hfn t3, fun t4 ht4 => ?_, ?_⟩
    · exact TTLCache.unsafeGet_eq_of_false (TTLCache.unsafeGet_false_mono h1 ht4)
    · intro fn2 v2 u1 u2 u3 hfn2 hu1 hu2
      exact TTLCache.Do_of_miss_ok (TTLCache.unsafeGet_false_mono h1 hu1)
        (TTLCache.unsafeGet_false_mono h1 hu2) hfn2 u3
  · intro c key fn v er hfn h
    exact ⟨LRUCache.lruDo_of_miss_err h hfn, LRUCache.unsafeGet_of_none h,
      fun fn2 v2 hfn2 => LRUCache.lruDo_of_miss_ok h hfn2⟩

/-- Claim C1 witness: concrete failing producers on fresh stores. -/
theorem claim_C1_witness :
    ((TTLCache.New Nat Nat 10).Do 1 (fun _ => (42, some 7)) 0 0 0 =
      (TTLCache.New Nat Nat 10, 42, some 7) ∧
     (TTLCache.New Nat Nat 10).Get 1 5 = (0, false) ∧
     (TTLCache.New Nat Nat 10).Do 1 (fun _ => (9, (none : Option Nat))) 2 2 2 =
      ((TTLCache.New Nat Nat 10).unsafeSet 1 9 2, 9, none)) ∧
    ((LRUCache.New Nat Nat 0).Do 1 (fun _ => (42, some 7)) =
      (LRUCache.New Nat Nat 0, 42, some 7) ∧
     (LRUCache.New Nat Nat 0).Get 1 = (LRUCache.New Nat Nat 0, 0, false) ∧
     (LRUCache.New Nat Nat 0).Do 1 (fun _ => (9, (none : Option Nat))) =
      ((LRUCache.New Nat Nat 0).unsafeSet 1 9, 9, none)) := by
  have ht := (claim_C1_do_error_leaves_no_trace (E := Nat)).1
    (TTLCache.New Nat Nat 10) 1 (fun _ => (42, some 7)) 42 7 0 0 0 rfl (by decide) (by decide)
  have hl := (claim_C1_do_error_leaves_no_trace (E := Nat)).2
    (LRUCache.New Nat Nat 0) 1 (fun _ => (42, some 7)) 42 7 rfl rfl
  exact ⟨⟨ht.1, ht.2.1 5 (by decide), ht.2.2 (fun _ => (9, none)) 9 2 2 2 rfl (by decide) (by decide)⟩,
    ⟨hl.1, hl.2.1, hl.2.2 (fun _ => (9, none)) 9 rfl⟩⟩

/-- Claim C3: for both stores, `Do(key, fn)` is check-then-compute: on a
hit (present and, for the TTL store, unexpired) it returns the cached
value with a nil error, independently of `fn`; on a miss it runs `fn`
and, on success, stores the produced value (retrievable by a subsequent
`Get`, within the expiry window for the TTL store) and returns it with a
nil error. -/
theorem claim_C3_do_check_then_compute {K V E : Type} [DecidableEq K] [Inhabited V] :
    (∀ (c : TTLCache K V) (key : K) (t1 : Int) (v : V),
      c.unsafeGet key t1 = (v, true) →
      ∀ (fn : Unit → V × Option E) (t2 t3 : Int),
        c.Do key fn t1 t2 t3 = (c, v, none)) ∧
    (∀ (c : TTLCache K V) (key : K) (t1 t2 t3 : Int) (v : V)
        (fn : Unit → V × Option E),
      (c.unsafeGet key t1).2 = false →
      (c.unsafeGet key t2).2 = false →
      fn () = (v, none) →
      c.Do key fn t1 t2 t3 = (c.unsafeSet key v t3, v, none) ∧
      (∀ t4, t4 ≤ t3 + c.ttl → (c.unsafeSet key v t3).Get key t4 = (v, true))) ∧
    (∀ (c : LRUCache K V) (key : K) (e : K × V),
      c.findEntry key = some e →
      ∀ (fn : Unit → V × Option E),
        c.Do key fn = (c.moveToFront e, e.2, none)) ∧
    (∀ (c : LRUCache K V) (key : K) (v : V) (fn : Unit → V × Option E),
      c.findEntry key = none →
      fn () = (v, none) →
      c.Do key fn = (c.unsafeSet key v, v, none) ∧
      ((c.unsafeSet key v).Get key).2 = (v, true)) := by
  refine ⟨?_, ?_, ?_, ?_⟩
  · intro c key t1 v hget fn t2 t3
    have h2 : (c.unsafeGet key t1).2 = true := by rw [hget]
    have h1 : (c.unsafeGet key t1).1 = v := by rw [hget]
    rw [TTLCache.Do_of_hit h2 fn t2 t3, h1]
  · intro c key t1 t2 t3 v fn h1 h2 hfn
    refine ⟨TTLCache.Do_of_miss_ok h1 h2 hfn t3, fun t4 ht4 => ?_⟩
    have hlook : mapLookup ((c.unsafeSet key v t3).data) key =
        some ⟨v, t3 + c.ttl⟩ := mapLookup_mapInsert_self c.data key _
    exact TTLCache.unsafeGet_of_lookup_fresh hlook (by simpa using not_lt.2 ht4)
  · intro c key e he fn
    exact LRUCache.lruDo_of_hit he fn
  · intro c key v fn hmiss hfn
    refine ⟨LRUCache.lruDo_of_miss_ok hmiss hfn, ?_⟩
    show ((c.unsafeSet key v).unsafeGet key).2 = (v, true)
    rw [LRUCache.snd_unsafeGet_of_findEntry (LRUCache.findEntry_unsafeSet_self c key v)]

/-- Claim C3 witness: concrete hits and misses on small stores. -/
theorem claim_C3_witness :
    (((TTLCache.New Nat Nat 10).Set 1 5 0).Do 1 (fun _ => (9, some 3)) 4 4 4 =
      (((TTLCache.New Nat Nat 10).Set 1 5 0), 5, none)) ∧
    ((TTLCache.New Nat Nat 10).Do 1 (fun _ => (9, (none : Option Nat))) 0 0 0 =
      ((TTLCache.New Nat Nat 10).unsafeSet 1 9 0, 9, none)) ∧
    (((TTLCache.New Nat Nat 10).unsafeSet 1 9 0).Get 1 8 = (9, true)) ∧
    (((LRUCache.New Nat Nat 0).Set 1 5).Do 1 (fun _ => (9, some 3)) =
      ((((LRUCache.New Nat Nat 0).Set 1 5).moveToFront (1, 5)), 5, none)) ∧
    ((LRUCache.New Nat Nat 0).Do 1 (fun _ => (9, (none : Option Nat))) =
      ((LRUCache.New Nat Nat 0).unsafeSet 1 9, 9, none)) ∧
    ((((LRUCache.New Nat Nat 0).unsafeSet 1 9).Get 1).2 = (9, true)) := by
  have h := claim_C3_do_check_then_compute (K := Nat) (V := Nat) (E := Nat)
  have hmiss := h.2.1 (TTLCache.New Nat Nat 10) 1 0 0 0 9 (fun _ => (9, none))
    (by decide) (by decide) rfl
  have hlmiss := h.2.2.2 (LRUCache.New Nat Nat 0) 1 9 (fun _ => (9, none)) rfl rfl
  exact ⟨h.1 ((TTLCache.New Nat Nat 10).Set 1 5 0) 1 4 5 (by decide) _ 4 4,
    hmiss.1, hmiss.2 8 (by decide),
    h.2.2.1 ((LRUCache.New Nat Nat 0).Set 1 5) 1 (1, 5) (by decide) _,
    hlmiss.1, hlmiss.2⟩

/-- Claim C5: for both stores and every sequence of `Set` calls starting
from a fresh store, the store holds at most one entry per key, and the
entry for `k` carries the value of the most recent `Set(k, v)`: the LRU
`Get` returns it, and the TTL store's map binds `k` to it (with the last
write's expiry), `Get` returning it within the expiry window. -/
theorem claim_C5_unique_keys_last_set_wins {K V : Type} [DecidableEq K] [Inhabited V] :
    (∀ (ops : List (K × V)) (k : K) (v : V),
      keysUnique ((ops.foldl (fun a p => a.Set p.1 p.2) (LRUCache.New K V 0)).entries) ∧
      (lastValue ops k = some v →
        ((ops.foldl (fun a p => a.Set p.1 p.2) (LRUCache.New K V 0)).Get k).2 = (v, true))) ∧
    (∀ (ops : List ((K × V) × Int)) (T : Int) (k : K) (v : V) (t : Int),
      keysUnique ((ops.foldl (fun a p => a.Set p.1.1 p.1.2 p.2) (TTLCache.New K V T)).data) ∧
      (lastStamped ops k = some (v, t) →
        mapLookup ((ops.foldl (fun a p => a.Set p.1.1 p.1.2 p.2)
            (TTLCache.New K V T)).data) k = some ⟨v, t + T⟩ ∧
        (∀ tg, tg ≤ t + T →
          (ops.foldl (fun a p => a.Set p.1.1 p.1.2 p.2) (TTLCache.New K V T)).Get k tg =
            (v, true)))) := by
  constructor
  · intro ops k v
    constructor
    · exact LRUCache.lru_keysUnique_setFold ops (LRUCache.New K V 0) List.Pairwise.nil
    · intro h
      have hfe : ((LRUCache.New K V 0).SetFromIter ops).findEntry k = some (k, v) := by
        rw [LRUCache.findEntry_setFold, h]
      exact LRUCache.snd_unsafeGet_of_findEntry hfe
  · intro ops T k v t
    constructor
    · exact TTLCache.keysUnique_setFold ops (TTLCache.New K V T) List.Pairwise.nil
    · intro h
      have hlook : mapLookup (((TTLCache.New K V T).SetFromIter ops).data) k =
          some ⟨v, t + T⟩ := by
        rw [TTLCache.mapLookup_setFold, h]
        rfl
      refine ⟨hlook, fun tg htg => ?_⟩
      exact TTLCache.unsafeGet_of_lookup_fresh hlook (by simpa using not_lt.2 htg)

/-- Claim C5 witness: the sequence `Set 1 10; Set 2 20; Set 1 30` on both
fresh stores: keys stay unique and `Get 1` serves the last value `30`. -/
theorem claim_C5_witness :
    keysUnique (([(1, 10), (2, 20), (1, 30)].foldl (fun a p => a.Set p.1 p.2)
      (LRUCache.New Nat Nat 0)).entries) ∧
    (([(1, 10), (2, 20), (1, 30)].foldl (fun a p => a.Set p.1 p.2)
      (LRUCache.New Nat Nat 0)).Get 1).2 = (30, true) ∧
    keysUnique (([((1, 10), 0), ((2, 20), 1), ((1, 30), 2)].foldl
      (fun a p => a.Set p.1.1 p.1.2 p.2) (TTLCache.New Nat Nat 50)).data) ∧
    ([((1, 10), 0), ((2, 20), 1), ((1, 30), 2)].foldl
      (fun a p => a.Set p.1.1 p.1.2 p.2) (TTLCache.New Nat Nat 50)).Get 1 40 = (30, true) := by
  have hl := claim_C5_unique_keys_last_set_wins.1 [(1, 10), (2, 20), (1, 30)] 1 30
  have ht := claim_C5_unique_keys_last_set_wins.2
    [((1, 10), 0), ((2, 20), 1), ((1, 30), 2)] 50 1 30 2
  exact ⟨hl.1, hl.2 (by decide), ht.1, (ht.2 (by decide)).2 40 (by decide)⟩

/-- With pairwise-distinct fresh keys, folding `Set` adds one list node
per pair: nothing is evicted along the way. -/
theorem LRUCache.length_setFold_of_fresh {K V : Type} [DecidableEq K] [Inhabited V]
    (ops : List (K × V)) (c : LRUCache K V)
    (hu : keysUnique ops) (hd : ∀ p ∈ ops, c.findEntry p.1 = none) :
    (c.SetFromIter ops).entries.length = c.entries.length + ops.length := by
  induction ops generalizing c with
  | nil => simp [SetFromIter]
  | cons p rest ih =>
    have hstep : c.SetFromIter (p :: rest) = (c.unsafeSet p.1 p.2).SetFromIter rest := rfl
    simp only [keysUnique, List.pairwise_cons] at hu
    have hc' : (c.unsafeSet p.1 p.2).entries = (p.1, p.2) :: c.entries :=
      unsafeSet_of_none p.2 (hd p (List.mem_cons_self _ _))
    have hd' : ∀ q ∈ rest, (c.unsafeSet p.1 p.2).findEntry q.1 = none := by
      intro q hq
      rw [findEntry_unsafeSet_ne c p.2 (fun e => hu.1 q hq e.symm)]
      exact hd q (List.mem_cons_of_mem _ hq)
    rw [hstep, ih (c.unsafeSet p.1 p.2) hu.2 hd', hc']
    simp only [List.length_cons]
    omega

/-- Claim C7: inserting N pairwise-distinct keys into a fresh recency
store yields exactly N entries, all retrievable with their values; `Get`
only permutes the list (removes nothing) and `Set` removes no entry:
entries under other keys survive and the written key is present. -/
theorem claim_C7_no_implicit_eviction {K V : Type} [DecidableEq K] [Inhabited V] :
    (∀ (ops : List (K × V)),
      keysUnique ops →
      (ops.foldl (fun a p => a.Set p.1 p.2) (LRUCache.New K V 0)).entries.length =
        ops.length ∧
      (∀ p ∈ ops,
        ((ops.foldl (fun a p => a.Set p.1 p.2) (LRUCache.New K V 0)).Get p.1).2 =
          (p.2, true))) ∧
    (∀ (c : LRUCache K V) (k : K), ((c.Get k).1).entries.Perm c.entries) ∧
    (∀ (c : LRUCache K V) (k : K) (v : V) (e : K × V),
      e ∈ c.entries → e.1 ≠ k → e ∈ (c.Set k v).entries) ∧
    (∀ (c : LRUCache K V) (k : K) (v : V), (k, v) ∈ (c.Set k v).entries) := by
  refine ⟨fun ops hu => ⟨?_, fun p hp => ?_⟩, fun c k => ?_, fun c k v e he hne => ?_,
    fun c k v => ?_⟩
  · have h0 := LRUCache.length_setFold_of_fresh ops (LRUCache.New K V 0) hu (fun _ _ => rfl)
    show ((LRUCache.New K V 0).SetFromIter ops).entries.length = ops.length
    simpa [LRUCache.New] using h0
  · obtain ⟨pk, pv⟩ := p
    have hlast : lastValue ops pk = some pv := lastValue_of_mem_unique hu hp
    have hfe : ((LRUCache.New K V 0).SetFromIter ops).findEntry pk = some (pk, pv) := by
      rw [LRUCache.findEntry_setFold, hlast]
    exact LRUCache.snd_unsafeGet_of_findEntry hfe
  · exact LRUCache.unsafeGet_perm c k
  · exact LRUCache.mem_unsafeSet_of_ne c k v he hne
  · rw [LRUCache.Set, LRUCache.unsafeSet]
    cases c.findEntry k <;> exact List.mem_cons_self _ _

/-- Claim C7 witness: three distinct keys give three entries, all
retrievable; concrete `Get`/`Set` preserve the other entries. -/
theorem claim_C7_witness :
    ([(1, 10), (2, 20), (3, 30)].foldl (fun a p => a.Set p.1 p.2)
      (LRUCache.New Nat Nat 0)).entries.length = 3 ∧
    (([(1, 10), (2, 20), (3, 30)].foldl (fun a p => a.Set p.1 p.2)
      (LRUCache.New Nat Nat 0)).Get 2).2 = (20, true) ∧
    (((LRUCache.mk [(1, 10), (2, 20)]).Get 2).1).entries.Perm [(1, 10), (2, 20)] ∧
    (1, 10) ∈ ((LRUCache.mk [(1, 10), (2, 20)] : LRUCache Nat Nat).Set 2 99).entries ∧
    (2, 99) ∈ ((LRUCache.mk [(1, 10), (2, 20)] : LRUCache Nat Nat).Set 2 99).entries := by
  have h := claim_C7_no_implicit_eviction (K := Nat) (V := Nat)
  have h1 := h.1 [(1, 10), (2, 20), (3, 30)] (by decide)
  exact ⟨h1.1, h1.2 (2, 20) (by decide),
    h.2.1 (LRUCache.mk [(1, 10), (2, 20)]) 2,
    h.2.2.1 (LRUCache.mk [(1, 10), (2, 20)]) 2 99 (1, 10) (by decide) (by decide),
    h.2.2.2 (LRUCache.mk [(1, 10), (2, 20)]) 2 99⟩

/-- Pairwise distinctness transfers from a mapped list back along the
projection. -/
theorem pairwise_of_pairwise_map {A B : Type} {f : A → B} {R : B → B → Prop}
    {l : List A} (h : (l.map f).Pairwise R) :
    l.Pairwise (fun a b => R (f a) (f b)) := by
  induction l with
  | nil => exact List.Pairwise.nil
  | cons a rest ih =>
    rw [List.map_cons, List.pairwise_cons] at h
    exact List.pairwise_cons.2
      ⟨fun b hb => h.1 (f b) (List.mem_map_of_mem f hb), ih h.2⟩

/-- Claim C8: `SetFromIter` equals the fold of individual `Set` calls in
iteration order (for both stores), and `SetFromMap`, fed any iteration
order (a permutation of the mapping's pairs, with distinct keys), makes
every key of the mapping retrievable with its supplied value (within the
expiry window for the TTL store). -/
theorem claim_C8_bulk_setters {K V : Type} [DecidableEq K] [Inhabited V] :
    (∀ (c : TTLCache K V) (data : List ((K × V) × Int)),
      c.SetFromIter data = data.foldl (fun a p => a.Set p.1.1 p.1.2 p.2) c) ∧
    (∀ (c : LRUCache K V) (data : List (K × V)),
      c.SetFromIter data = data.foldl (fun a p => a.Set p.1 p.2) c) ∧
    (∀ (c : LRUCache K V) (m order : List (K × V)),
      keysUnique m → order.Perm m →
      ∀ p ∈ m, ((c.SetFromMap order).Get p.1).2 = (p.2, true)) ∧
    (∀ (c : TTLCache K V) (m : List (K × V)) (order : List ((K × V) × Int)),
      keysUnique m → (order.map Prod.fst).Perm m →
      ∀ p ∈ m, ∀ tg, (∀ q ∈ order, tg ≤ q.2 + c.ttl) →
        (c.SetFromMap order).Get p.1 tg = (p.2, true)) := by
  refine ⟨fun c data => rfl, fun c data => rfl, ?_, ?_⟩
  · intro c m order hu hperm p hp
    obtain ⟨pk, pv⟩ := p
    have hsymm : ∀ {x y : K × V}, x.1 ≠ y.1 → y.1 ≠ x.1 := fun h => Ne.symm h
    have huo : keysUnique order := (hperm.pairwise_iff hsymm).2 hu
    have hmem : (pk, pv) ∈ order := hperm.mem_iff.2 hp
    have hlast : lastValue order pk = some pv := lastValue_of_mem_unique huo hmem
    have hfe : (c.SetFromIter order).findEntry pk = some (pk, pv) := by
      rw [LRUCache.findEntry_setFold, hlast]
    exact LRUCache.snd_unsafeGet_of_findEntry hfe
  · intro c m order hu hperm p hp tg htg
    obtain ⟨pk, pv⟩ := p
    have hsymm : ∀ {x y : K × V}, x.1 ≠ y.1 → y.1 ≠ x.1 := fun h => Ne.symm h
    have hmapped : (order.map Prod.fst).Pairwise (fun a b : K × V => a.1 ≠ b.1) :=
      (hperm.pairwise_iff hsymm).2 hu
    have huo : order.Pairwise (fun a b => a.1.1 ≠ b.1.1) :=
      @pairwise_of_pairwise_map ((K × V) × Int) (K × V) Prod.fst
        (fun a b => a.1 ≠ b.1) order hmapped
    have hmem : (pk, pv) ∈ order.map Prod.fst := hperm.mem_iff.2 hp
    obtain ⟨q, hq, hq1⟩ := List.mem_map.1 hmem
    have hmem2 : ((pk, pv), q.2) ∈ order := by
      rw [← hq1]
      exact hq
    have hlast : lastStamped order pk = some (pv, q.2) :=
      lastStamped_of_mem_unique huo hmem2
    have hlook : mapLookup ((c.SetFromIter order).data) pk = some ⟨pv, q.2 + c.ttl⟩ := by
      rw [TTLCache.mapLookup_setFold, hlast]
    exact TTLCache.unsafeGet_of_lookup_fresh hlook
      (by simpa using not_lt.2 (htg ((pk, pv), q.2) hmem2))

/-- Claim C8 witness: the mapping `{1:10, 2:20}` written through
`SetFromMap` in both iteration orders; both keys are retrievable. -/
theorem claim_C8_witness :
    (TTLCache.New Nat Nat 7).SetFromIter [((1, 10), 0), ((2, 20), 1)] =
      [((1, 10), 0), ((2, 20), 1)].foldl (fun a p => a.Set p.1.1 p.1.2 p.2)
        (TTLCache.New Nat Nat 7) ∧
    (LRUCache.New Nat Nat 0).SetFromIter [(1, 10), (2, 20)] =
      [(1, 10), (2, 20)].foldl (fun a p => a.Set p.1 p.2) (LRUCache.New Nat Nat 0) ∧
    (((LRUCache.New Nat Nat 0).SetFromMap [(2, 20), (1, 10)]).Get 1).2 = (10, true) ∧
    ((TTLCache.New Nat Nat 7).SetFromMap [((2, 20), 1), ((1, 10), 0)]).Get 1 5 =
      (10, true) := by
  have h := claim_C8_bulk_setters (K := Nat) (V := Nat)
  exact ⟨h.1 (TTLCache.New Nat Nat 7) [((1, 10), 0), ((2, 20), 1)],
    h.2.1 (LRUCache.New Nat Nat 0) [(1, 10), (2, 20)],
    h.2.2.1 (LRUCache.New Nat Nat 0) [(1, 10), (2, 20)] [(2, 20), (1, 10)]
      (by decide) (by decide) (1, 10) (by decide),
    h.2.2.2 (TTLCache.New Nat Nat 7) [(1, 10), (2, 20)] [((2, 20), 1), ((1, 10), 0)]
      (by decide) (by decide) (1, 10) (by decide) 5 (by decide)⟩

/-- Claim C10: for both stores, when the producer returns an error `Do`
returns exactly the producer's `(value, error)` pair — the value
component verbatim, not necessarily the zero value. -/
theorem claim_C10_do_error_pair_verbatim {K V E : Type} [DecidableEq K] [Inhabited V] :
    (∀ (c : TTLCache K V) (key : K) (fn : Unit → V × Option E) (v : V) (er : E)
        (t1 t2 t3 : Int),
      fn () = (v, some er) →
      (c.unsafeGet key t1).2 = false →
      (c.unsafeGet key t2).2 = false →
      (c.Do key fn t1 t2 t3).2 = (v, some er)) ∧
    (∀ (c : LRUCache K V) (key : K) (fn : Unit → V × Option E) (v : V) (er : E),
      fn () = (v, some er) →
      c.findEntry key = none →
      (c.Do key fn).2 = (v, some er)) := by
  constructor
  · intro c key fn v er t1 t2 t3 hfn h1 h2
    rw [TTLCache.Do_of_miss_err h1 h2 hfn t3]
  · intro c key fn v er hfn h
    rw [LRUCache.lruDo_of_miss_err h hfn]

/-- Claim C10 witness: a producer returning the non-zero value `42`
alongside its error: `Do` hands back `42`, not the zero value `0`. -/
theorem claim_C10_witness :
    ((TTLCache.New Nat Nat 10).Do 1 (fun _ => (42, some 7)) 0 0 0).2 = (42, some 7) ∧
    ((LRUCache.New Nat Nat 0).Do 1 (fun _ => (42, some 7))).2 = (42, some 7) := by
  exact ⟨(claim_C10_do_error_pair_verbatim (E := Nat)).1 (TTLCache.New Nat Nat 10) 1
      (fun _ => (42, some 7)) 42 7 0 0 0 rfl (by decide) (by decide),
    (claim_C10_do_error_pair_verbatim (E := Nat)).2 (LRUCache.New Nat Nat 0) 1
      (fun _ => (42, some 7)) 42 7 rfl rfl⟩

end PowerCache
